import Mathlib

/-!
A verification development for the combinatorial allocation solver of
`scheduling.py` (a weekly-timetable enumerator).

Shallow embedding conventions:
* `datetime` values are embedded as minutes (`Nat`): within the fixed month used
  by the program, `datetime(year, month, day, hh, mm)` corresponds to
  `day * 1440 + hh * 60 + mm`, and `timedelta(minutes = 5)` to `+ 5`.
  Comparison and addition of datetimes agree with the `Nat` operations.
* the schedule `dict` is embedded as an association list built in the source's
  insertion order (`Grid`); assignment to an existing key updates it in place,
  assignment to a fresh key appends, exactly like a Python dict.  Equality of
  two grids built from `empty_schedule` by in-place updates coincides with
  Python dict equality.
* the transient mutable field `Subject.allocated_times` is threaded explicitly
  as a `Finset Slot` (the source resets it after each candidate, so
  materialization is a pure function of the subject list and the vectors).
* fallible operations (Python `IndexError` on list indexing, `KeyError` on a
  missing dict key) return `Option`.
-/

/-- A candidate time slot `(start, end)` in minutes. -/
abbrev Slot : Type := Nat × Nat

/-- The weekly grid: an association list from a time tick (minutes) to the
occupying subject's name (`""` when the tick is empty), in insertion order. -/
abbrev Grid : Type := List (Nat × String)

/-- Python `schedule[t]` read: first (unique) binding of key `t`; `none`
models a `KeyError`. -/
def grid_lookup : Grid → Nat → Option String
  | [], _ => none
  | (k, v) :: rest, t => if k = t then some v else grid_lookup rest t

/-- Python `schedule[t] = v` write: update the binding in place when the key
exists (dict keys are unique), append a fresh binding otherwise — Python dict
insertion-order semantics. -/
def grid_set : Grid → Nat → String → Grid
  | [], t, v => [(t, v)]
  | (k, w) :: rest, t, v =>
    if k = t then (k, v) :: rest else (k, w) :: grid_set rest t v

-- Global day/hour configuration of the source (year 2017, October, day0 = 2,
-- working hours 8:00 to 20:00, 5-minute quantum).
def day0 : Nat := 2
def start_of_day : Nat := 8
def end_of_day : Nat := 20

/-- A subject: name, type (`"UE"` = RequiredOne, `"VO"` = FillAll) and the
declared candidate slots, in declaration order.  The display color and the
locations of the source are irrelevant to the solver and omitted. -/
structure Subject where
  name : String
  type : String
  times : List Slot
  deriving Repr, DecidableEq

namespace Schedule

/-- `Schedule.empty_schedule`: one empty binding for every 5-minute tick of the
five working days between `start_of_day` and `end_of_day`. -/
def empty_schedule : Grid :=
  (List.range 5).flatMap (fun d =>
    (List.range (end_of_day - start_of_day)).flatMap (fun h =>
      (List.range 12).map (fun m =>
        ((day0 + d) * 1440 + (start_of_day + h) * 60 + m * 5, ""))))

/-- The loop of `Schedule.is_free` (structured with a step counter so that it
is structurally recursive; `e - t` steps always suffice because each
iteration moves `t` up by 5): scan ticks `s, s+5, …` strictly below `e`;
`some false` as soon as an occupied tick is met, `none` on a missing key
(`KeyError` in the source), `some true` when the whole range is clear. -/
def freeFromGo (g : Grid) : Nat → Nat → Nat → Option Bool
  | 0, _, _ => some true
  | steps + 1, t, e =>
    if t < e then
      match grid_lookup g t with
      | none => none
      | some v => if v = "" then freeFromGo g steps (t + 5) e else some false
    else some true

/-- The `while` loop of `Schedule.is_free`, entered at tick `s`. -/
def freeFrom (g : Grid) (s e : Nat) : Option Bool :=
  freeFromGo g (e - s) s e

/-- `Schedule.is_free(schedule, selected_time)`. -/
def is_free (g : Grid) (selected_time : Slot) : Option Bool :=
  freeFrom g selected_time.1 selected_time.2

/-- The loop of `Schedule.fill` (same step-counter presentation): write the
subject's name at ticks `s, s+5, …` strictly below `e`. -/
def fillFromGo (name : String) : Nat → Grid → Nat → Nat → Grid
  | 0, g, _, _ => g
  | steps + 1, g, t, e =>
    if t < e then fillFromGo name steps (grid_set g t name) (t + 5) e else g

/-- The `while` loop of `Schedule.fill`, entered at tick `s`. -/
def fillFrom (g : Grid) (name : String) (s e : Nat) : Grid :=
  fillFromGo name (e - s) g s e

/-- `Schedule.fill(schedule, subject, selected_time)`. -/
def fill (g : Grid) (subject : Subject) (selected_time : Slot) : Grid :=
  fillFrom g subject.name selected_time.1 selected_time.2

end Schedule

/-- The ticks a slot `(s, e)` occupies: `s, s+5, …`, strictly below `e`
(the half-open scan of `is_free` and `fill`). -/
def slotTicks (s e : Nat) : List Nat :=
  (List.range ((e - s + 4) / 5)).map (fun k => s + 5 * k)

namespace Subject

/-- `Subject.mark_allocated`: add a slot to the transient allocated set. -/
def mark_allocated (allocated : Finset Slot) (selected_time : Slot) :
    Finset Slot :=
  insert selected_time allocated

/-- `Subject.is_complete` on the explicit allocated set. -/
def is_complete (s : Subject) (allocated : Finset Slot) : Bool :=
  if s.type = "VO" then allocated = s.times.toFinset
  else 1 ≤ allocated.card

/-- `Subject.is_partially_complete` on the explicit allocated set
(the name is shortened; the source spells the adverb out). -/
def is_partly_complete (allocated : Finset Slot) : Bool :=
  1 ≤ allocated.card

end Subject

/-- `itertools.product([True, False], repeat = n)`, in its enumeration order:
the first component is the outermost loop and `True` comes first. -/
def boolTuples : Nat → List (List Bool)
  | 0 => [[]]
  | n + 1 =>
      ((boolTuples n).map (fun t => true :: t)) ++
        ((boolTuples n).map (fun t => false :: t))

/-- The cursor over one subject's valid selection vectors: current `index`,
exhaustion flag, and the ordered vector list (the source's private
`__array`). -/
structure Allocation where
  index : Nat
  has_reached_end : Bool
  arrayList : List (List Bool)
  deriving Repr, DecidableEq

namespace Allocation

/-- `Allocation.__init__(subject)`: filter the boolean-tuple enumeration by
the kind-specific validity rule (`"VO"`: at least one `True`; otherwise:
exactly one `True`, via `sum(booltuple) == 1`). -/
def init (subject : Subject) : Allocation :=
  { index := 0
    has_reached_end := false
    arrayList :=
      if subject.type = "VO" then
        (boolTuples subject.times.length).filter (fun t => t.any id)
      else
        (boolTuples subject.times.length).filter (fun t => t.count true == 1) }

/-- `Allocation.get_array` (the `array` property): `self.__array[self.index]`;
`none` models the `IndexError` raised on an empty vector list. -/
def get_array (a : Allocation) : Option (List Bool) :=
  a.arrayList[a.index]?

/-- `Allocation.advance`: step forward, or set the exhaustion flag when
already at the last entry. -/
def advance (a : Allocation) : Allocation :=
  if a.index < a.arrayList.length - 1 then { a with index := a.index + 1 }
  else { a with has_reached_end := true }

/-- `Allocation.reverse`: step back unless at the first entry. -/
def reverse (a : Allocation) : Allocation :=
  if 0 < a.index then { a with index := a.index - 1 } else a

/-- `Allocation.reset_end_status`. -/
def reset_end_status (a : Allocation) : Allocation :=
  { a with has_reached_end := false }

end Allocation

namespace Schedule

/-- The inner loop of the first pass of `Schedule.create_schedule`, for one
subject: its slots paired with the subject's current selection vector
(`allocations[i].array[j]`, with `j` ranging over the slots), in declaration
order.  A selected slot is claimed — filled whole and marked allocated — when
its full range is free, and skipped whole otherwise.  The guard demands
`is_free … = some true`: for a slot outside the grid domain the source's
`is_free` raises `KeyError` instead; every subject considered here has
parser-validated in-domain slots (spec section 6), where the two coincide. -/
def pass1Slots (subject : Subject) :
    List (Slot × Bool) → Grid → Finset Slot → Grid × Finset Slot
  | [], g, allocated => (g, allocated)
  | (selected_time, sel) :: rest, g, allocated =>
    if sel then
      if is_free g selected_time = some true then
        pass1Slots subject rest (fill g subject selected_time)
          (Subject.mark_allocated allocated selected_time)
      else pass1Slots subject rest g allocated
    else pass1Slots subject rest g allocated

/-- The first pass of `Schedule.create_schedule`: subjects in list order, each
starting from the empty transient allocated set (the source resets it after
every candidate).  Returns the grid and the per-subject allocated sets. -/
def pass1 : List (Subject × List Bool) → Grid → Grid × List (Finset Slot)
  | [], g => (g, [])
  | (subject, vec) :: rest, g =>
    let r1 := pass1Slots subject (subject.times.zip vec) g ∅
    let r2 := pass1 rest r1.1
    (r2.1, r1.2 :: r2.2)

/-- The inner loop of the second pass, for one `"VO"` subject: every declared
slot not yet allocated whose range is still free gets claimed. -/
def pass2Slots (subject : Subject) :
    List Slot → Grid → Finset Slot → Grid × Finset Slot
  | [], g, allocated => (g, allocated)
  | selected_time :: rest, g, allocated =>
    if selected_time ∉ allocated ∧ is_free g selected_time = some true then
      pass2Slots subject rest (fill g subject selected_time)
        (Subject.mark_allocated allocated selected_time)
    else pass2Slots subject rest g allocated

/-- The second pass of `Schedule.create_schedule`: only `"VO"` subjects take
part; each is given a second chance at all of its not-yet-allocated slots. -/
def pass2 : List (Subject × Finset Slot) → Grid → Grid × List (Finset Slot)
  | [], g => (g, [])
  | (subject, allocated) :: rest, g =>
    if subject.type = "VO" then
      let r1 := pass2Slots subject subject.times g allocated
      let r2 := pass2 rest r1.1
      (r2.1, r1.2 :: r2.2)
    else
      let r2 := pass2 rest g
      (r2.1, allocated :: r2.2)

/-- Both materialization passes, from the empty grid; returns the final grid
and the per-subject allocated sets. -/
def materialize (subjects : List Subject) (arrays : List (List Bool)) :
    Grid × List (Finset Slot) :=
  let r1 := pass1 (subjects.zip arrays) empty_schedule
  pass2 (subjects.zip r1.2) r1.1

/-- The classification loop of `Schedule.create_schedule`: a subject with an
empty allocated set raises `total_failure`; a partially complete but not
complete subject raises `is_incomplete`.  Returns
`(total_failure, is_incomplete)`. -/
def classify : List (Subject × Finset Slot) → Bool × Bool
  | [] => (false, false)
  | (subject, allocated) :: rest =>
    let r := classify rest
    if ¬ Subject.is_partly_complete allocated then (true, r.2)
    else if ¬ Subject.is_complete subject allocated then (r.1, true)
    else r

/-- `Schedule.create_schedule`: materialize the combination, classify it, and
return the grid (`none` models the `return None` on total failure) together
with the `is_incomplete` flag set on the object. -/
def create_schedule (subjects : List Subject) (arrays : List (List Bool)) :
    Option Grid × Bool :=
  let r := materialize subjects arrays
  let c := classify (subjects.zip r.2)
  (if c.1 then none else some r.1, c.2)

end Schedule

/-- A `Schedule` object as `percolate` sees it: the `table` attribute (`none`
after a failed construction) and the `is_incomplete` flag.  Python's
`Schedule.__eq__` compares the tables. -/
structure Schedule where
  table : Option Grid
  is_incomplete : Bool
  deriving Repr, DecidableEq

/-- `Schedule(subjects = …, allocations = …)` for the combination whose
current vectors are `arrays`. -/
def mk_schedule (subjects : List Subject) (arrays : List (List Bool)) :
    Schedule :=
  let r := Schedule.create_schedule subjects arrays
  { table := r.1, is_incomplete := r.2 }

/-- The solver's global mutable state: the shared cursor list, the memo set of
already-seen combinations (modeled as the list of combinations in first-seen
order; only membership is ever queried), the accepted schedules, and the two
counters. -/
structure PercState where
  allocations : List Allocation
  permutations : List (List (List Bool))
  saved_schedules : List Schedule
  duplicates : Nat
  version : Nat
  deriving Repr, DecidableEq

/-- In-place update of one list element (Python `allocations[i] = …` effect of
the mutating method calls). -/
def listModify {α : Type} : List α → Nat → (α → α) → List α
  | [], _, _ => []
  | x :: rest, 0, f => f x :: rest
  | x :: rest, n + 1, f => x :: listModify rest n f

/-- The first loop of `percolate`: find the first cursor whose exhaustion flag
is set, clear it and return (`some`); `none` when no flag is set. -/
def reset_first_flag : List Allocation → Option (List Allocation)
  | [] => none
  | a :: rest =>
    if a.has_reached_end then some (Allocation.reset_end_status a :: rest)
    else
      match reset_first_flag rest with
      | some rest2 => some (a :: rest2)
      | none => none

/-- The `perm_check` construction of `percolate`: read every cursor's current
vector; `none` models the `IndexError` raised by `get_array` on an empty
vector list. -/
def get_arrays : List Allocation → Option (List (List Bool))
  | [] => some []
  | a :: rest =>
    match a.get_array, get_arrays rest with
    | some v, some vs => some (v :: vs)
    | _, _ => none

/-- The `duplicate` flag of `percolate`'s evaluation block:
`any([schedule == element for element in saved_schedules])`, where
`Schedule.__eq__` compares the tables.  The source's guarded
`AttributeError`/`TypeError` branch cannot fire: comparing an optional table
never raises in the model or in the source. -/
def is_duplicate (subjects : List Subject) (s : PercState)
    (perm_check : List (List Bool)) : Bool :=
  s.saved_schedules.any
    (fun element => (mk_schedule subjects perm_check).table == element.table)

/-- The `failed` flag of `percolate`'s evaluation block: Python's
`not schedule.table` (`None`, or an empty dict). -/
def is_failed (subjects : List Subject)
    (perm_check : List (List Bool)) : Bool :=
  match (mk_schedule subjects perm_check).table with
  | none => true
  | some g => g.isEmpty

/-- The candidate-evaluation block of `percolate`: build the `Schedule`,
check it against every saved schedule, count a duplicate or store a new
schedule. -/
def process_candidate (subjects : List Subject) (s : PercState)
    (perm_check : List (List Bool)) : PercState :=
  let duplicate := is_duplicate subjects s perm_check
  let s1 := if duplicate then { s with duplicates := s.duplicates + 1 } else s
  let failed := is_failed subjects perm_check
  if !duplicate && !failed then
    { s1 with
      version := s1.version + 1
      saved_schedules :=
        s1.saved_schedules ++ [mk_schedule subjects perm_check] }
  else s1

/-- Exit status of a `percolate` run: normal return, an uncaught Python
exception, or exhaustion of the step budget (an artifact of the embedding;
the source recursion has no such budget). -/
inductive PercOut
  | ok (s : PercState)
  | crash
  | fuelOut
  deriving Repr, DecidableEq

/-- The final loop of `percolate`, abstracted over the recursive call `f`:
for each cursor index in order, advance it, recurse, then move it back. -/
def percLoop (f : PercState → PercOut) : List Nat → PercState → PercOut
  | [], s => .ok s
  | i :: rest, s =>
    match f { s with allocations := listModify s.allocations i Allocation.advance } with
    | .ok s2 =>
        percLoop f rest
          { s2 with allocations := listModify s2.allocations i Allocation.reverse }
    | e => e

/-- `percolate(subjects, allocations)` acting on the global state.  The
recursion is bounded by a step budget (`fuel`); the source bounds it by the
interpreter's recursion limit instead. -/
def percolate (subjects : List Subject) : Nat → PercState → PercOut
  | 0, _ => .fuelOut
  | fuel + 1, s =>
    match reset_first_flag s.allocations with
    | some allocs => .ok { s with allocations := allocs }
    | none =>
      match get_arrays s.allocations with
      | none => .crash
      | some perm_check =>
        if perm_check ∈ s.permutations then .ok s
        else
          let s1 := { s with permutations := s.permutations ++ [perm_check] }
          let s2 := process_candidate subjects s1 perm_check
          percLoop (percolate subjects fuel) (List.range s2.allocations.length) s2

/-- The state in which the program first calls `percolate`: a fresh cursor per
subject, empty memo set, no saved schedules, zeroed counters. -/
def init_state (subjects : List Subject) : PercState :=
  { allocations := subjects.map Allocation.init
    permutations := []
    saved_schedules := []
    duplicates := 0
    version := 0 }

/-! ### Concrete inputs used in witnesses and counterexamples

All slots lie inside the grid domain (day 2 of the fixed month runs from
minute `2 * 1440 + 8 * 60 = 3360` to minute `2 * 1440 + 20 * 60 = 4080`). -/

/-- A RequiredOne subject with two disjoint one-tick slots. -/
def subjA : Subject :=
  { name := "A", type := "UE", times := [(3360, 3365), (3370, 3375)] }

/-- A RequiredOne subject whose only slot collides with `subjA`'s first. -/
def subjB : Subject :=
  { name := "B", type := "UE", times := [(3360, 3365)] }

/-- A FillAll subject with two disjoint one-tick slots. -/
def subjV : Subject :=
  { name := "V", type := "VO", times := [(3360, 3365), (3370, 3375)] }

/-- A RequiredOne subject with an empty slot list. -/
def subjEmpty : Subject :=
  { name := "E", type := "UE", times := [] }

/-- Three RequiredOne subjects with 4, 3 and 3 pairwise disjoint slots: their
valid-vector counts are 4, 3 and 3, so the combination space has 36 points. -/
def subjC2 : List Subject :=
  [ { name := "A", type := "UE",
      times := [(3360, 3365), (3365, 3370), (3370, 3375), (3375, 3380)] },
    { name := "B", type := "UE",
      times := [(3380, 3385), (3385, 3390), (3390, 3395)] },
    { name := "C", type := "UE",
      times := [(3395, 3400), (3400, 3405), (3405, 3410)] } ]

/-! ### Helper lemmas: ticks, grid reads and writes -/

theorem mem_slotTicks {s e u : Nat} :
    u ∈ slotTicks s e ↔ ∃ k, u = s + 5 * k ∧ u < e := by
  simp only [slotTicks, List.mem_map, List.mem_range]
  constructor
  · rintro ⟨k, hk, rfl⟩
    exact ⟨k, rfl, by omega⟩
  · rintro ⟨k, rfl, hlt⟩
    exact ⟨k, by omega, rfl⟩

theorem slotTicks_step {s e u : Nat} (h : s < e) :
    u ∈ slotTicks s e ↔ u = s ∨ u ∈ slotTicks (s + 5) e := by
  simp only [mem_slotTicks]
  constructor
  · rintro ⟨k, rfl, hlt⟩
    cases k with
    | zero => exact Or.inl (by omega)
    | succ k => exact Or.inr ⟨k, by omega, hlt⟩
  · rintro (rfl | ⟨k, rfl, hlt⟩)
    · exact ⟨0, by omega, h⟩
    · exact ⟨k + 1, by omega, hlt⟩

theorem slotTicks_empty {s e : Nat} (h : ¬ s < e) : slotTicks s e = [] := by
  simp only [slotTicks]
  have : (e - s + 4) / 5 = 0 := by omega
  simp [this]

theorem grid_lookup_set (g : Grid) (t : Nat) (v : String) (u : Nat) :
    grid_lookup (grid_set g t v) u = if u = t then some v else grid_lookup g u := by
  induction g with
  | nil =>
      by_cases h : u = t
      · simp [grid_set, grid_lookup, h]
      · simp [grid_set, grid_lookup, h, Ne.symm h]
  | cons p rest ih =>
      obtain ⟨k, w⟩ := p
      by_cases hkt : k = t
      · subst hkt
        by_cases hku : k = u
        · simp [grid_set, grid_lookup, hku]
        · simp [grid_set, grid_lookup, hku, Ne.symm hku]
      · by_cases hku : k = u
        · subst hku
          simp [grid_set, grid_lookup, hkt]
        · simp [grid_set, grid_lookup, hkt, hku, ih]

theorem fillFromGo_lookup (name : String) (e : Nat) :
    ∀ (steps : Nat) (g : Grid) (t u : Nat), e - t ≤ 5 * steps →
      grid_lookup (Schedule.fillFromGo name steps g t e) u =
        if u ∈ slotTicks t e then some name else grid_lookup g u := by
  intro steps
  induction steps with
  | zero =>
      intro g t u h
      have hte : ¬ t < e := by omega
      simp [Schedule.fillFromGo, slotTicks_empty hte]
  | succ st ih =>
      intro g t u h
      by_cases hlt : t < e
      · simp only [Schedule.fillFromGo, hlt, if_true]
        rw [ih _ (t + 5) u (by omega), grid_lookup_set]
        by_cases hmem : u ∈ slotTicks (t + 5) e
        · have hm : u ∈ slotTicks t e := (slotTicks_step hlt).2 (Or.inr hmem)
          simp [hmem, hm]
        · by_cases hut : u = t
          · subst hut
            have hm : u ∈ slotTicks u e := (slotTicks_step hlt).2 (Or.inl rfl)
            simp [hmem, hm]
          · have hm : u ∉ slotTicks t e := by
              intro hc
              rcases (slotTicks_step hlt).1 hc with h1 | h1
              exacts [hut h1, hmem h1]
            simp [hmem, hut, hm]
      · simp [Schedule.fillFromGo, hlt, slotTicks_empty hlt]

theorem freeFromGo_congr (g₁ g₂ : Grid) (e : Nat) :
    ∀ (steps₁ steps₂ t : Nat), e - t ≤ 5 * steps₁ → e - t ≤ 5 * steps₂ →
      (∀ u ∈ slotTicks t e, grid_lookup g₁ u = grid_lookup g₂ u) →
      Schedule.freeFromGo g₁ steps₁ t e = Schedule.freeFromGo g₂ steps₂ t e := by
  intro steps₁
  induction steps₁ with
  | zero =>
      intro steps₂ t h1 h2 _
      have hte : ¬ t < e := by omega
      cases steps₂ with
      | zero => rfl
      | succ s2 => simp [Schedule.freeFromGo, hte]
  | succ s1 ih =>
      intro steps₂ t h1 h2 hagree
      by_cases hlt : t < e
      · cases steps₂ with
        | zero => omega
        | succ s2 =>
            have hmem : t ∈ slotTicks t e := (slotTicks_step hlt).2 (Or.inl rfl)
            simp only [Schedule.freeFromGo, hlt, if_true]
            rw [hagree t hmem]
            cases hv : grid_lookup g₂ t with
            | none => rfl
            | some v =>
                dsimp only
                by_cases hve : v = ""
                · rw [if_pos hve, if_pos hve]
                  exact ih s2 (t + 5) (by omega) (by omega)
                    (fun u hu => hagree u ((slotTicks_step hlt).2 (Or.inr hu)))
                · rw [if_neg hve, if_neg hve]
      · cases steps₂ with
        | zero => simp [Schedule.freeFromGo, hlt]
        | succ s2 => simp [Schedule.freeFromGo, hlt]

theorem freeFromGo_true_iff (g : Grid) (e : Nat) :
    ∀ (steps t : Nat), e - t ≤ 5 * steps →
      (Schedule.freeFromGo g steps t e = some true ↔
        ∀ u ∈ slotTicks t e, grid_lookup g u = some "") := by
  intro steps
  induction steps with
  | zero =>
      intro t h
      have hte : ¬ t < e := by omega
      simp [Schedule.freeFromGo, slotTicks_empty hte]
  | succ st ih =>
      intro t h
      by_cases hlt : t < e
      · simp only [Schedule.freeFromGo, hlt, if_true]
        cases hv : grid_lookup g t with
        | none =>
            constructor
            · intro hc; cases hc
            · intro hall
              have := hall t ((slotTicks_step hlt).2 (Or.inl rfl))
              rw [hv] at this; cases this
        | some v =>
            show (if v = "" then Schedule.freeFromGo g st (t + 5) e else some false) =
                some true ↔ ∀ u ∈ slotTicks t e, grid_lookup g u = some ""
            by_cases hve : v = ""
            · subst hve
              rw [if_pos rfl, ih (t + 5) (by omega)]
              constructor
              · intro hall u hu
                rcases (slotTicks_step hlt).1 hu with rfl | hu2
                · exact hv
                · exact hall u hu2
              · intro hall u hu
                exact hall u ((slotTicks_step hlt).2 (Or.inr hu))
            · rw [if_neg hve]
              constructor
              · intro hc; simp at hc
              · intro hall
                have := hall t ((slotTicks_step hlt).2 (Or.inl rfl))
                rw [hv] at this
                exact absurd (Option.some.inj this) hve
      · simp [Schedule.freeFromGo, hlt, slotTicks_empty hlt]

theorem grid_lookup_fill (g : Grid) (subject : Subject) (st : Slot) (u : Nat) :
    grid_lookup (Schedule.fill g subject st) u =
      if u ∈ slotTicks st.1 st.2 then some subject.name else grid_lookup g u :=
  fillFromGo_lookup subject.name st.2 (st.2 - st.1) g st.1 u (by omega)

theorem is_free_congr (g₁ g₂ : Grid) (st : Slot)
    (h : ∀ u ∈ slotTicks st.1 st.2, grid_lookup g₁ u = grid_lookup g₂ u) :
    Schedule.is_free g₁ st = Schedule.is_free g₂ st :=
  freeFromGo_congr g₁ g₂ st.2 (st.2 - st.1) (st.2 - st.1) st.1
    (by omega) (by omega) h

theorem is_free_true_iff (g : Grid) (st : Slot) :
    Schedule.is_free g st = some true ↔
      ∀ u ∈ slotTicks st.1 st.2, grid_lookup g u = some "" :=
  freeFromGo_true_iff g st.2 (st.2 - st.1) st.1 (by omega)

/-! ### Helper lemmas: the boolean-tuple enumeration -/

theorem mem_boolTuples : ∀ (n : Nat) (v : List Bool),
    v ∈ boolTuples n ↔ v.length = n := by
  intro n
  induction n with
  | zero => intro v; simp [boolTuples, List.length_eq_zero]
  | succ n ih =>
      intro v
      simp only [boolTuples, List.mem_append, List.mem_map]
      constructor
      · rintro (⟨w, hw, rfl⟩ | ⟨w, hw, rfl⟩) <;> simp [(ih w).1 hw]
      · intro hv
        cases v with
        | nil => simp at hv
        | cons b w =>
            have hw : w.length = n := by simpa using hv
            cases b
            · exact Or.inr ⟨w, (ih w).2 hw, rfl⟩
            · exact Or.inl ⟨w, (ih w).2 hw, rfl⟩

theorem nodup_boolTuples : ∀ n, (boolTuples n).Nodup := by
  intro n
  induction n with
  | zero => simp [boolTuples]
  | succ n ih =>
      simp only [boolTuples]
      refine List.Nodup.append (ih.map ?_) (ih.map ?_) ?_
      · exact fun x y h => by injection h
      · exact fun x y h => by injection h
      · intro x hx hy
        simp only [List.mem_map] at hx hy
        obtain ⟨w1, _, rfl⟩ := hx
        obtain ⟨w2, _, h2⟩ := hy
        cases h2

/-! ### Claims C8, C9, C10 -/

/-- **C8**: for a subject with `n` candidate slots, the enumerator produces,
each exactly once (the list has no duplicates; its order is a fixed function
of the subject), exactly the valid vectors: for a RequiredOne (`"UE"`)
subject the boolean `n`-tuples with exactly one `true`; for a FillAll
(`"VO"`) subject the boolean `n`-tuples with at least one `true`, including
the all-`true` tuple. -/
theorem C8_enumerator_valid_vectors (s : Subject) :
    ((Allocation.init s).arrayList.Nodup) ∧
    (s.type = "UE" →
      ∀ v, v ∈ (Allocation.init s).arrayList ↔
        (v.length = s.times.length ∧ v.count true = 1)) ∧
    (s.type = "VO" →
      (∀ v, v ∈ (Allocation.init s).arrayList ↔
        (v.length = s.times.length ∧ v.any id = true)) ∧
      (s.times ≠ [] →
        List.replicate s.times.length true ∈ (Allocation.init s).arrayList)) := by
  refine ⟨?_, ?_, ?_⟩
  · unfold Allocation.init
    dsimp only
    split <;> exact (nodup_boolTuples _).filter _
  · intro hUE v
    have hnotVO : ¬ s.type = "VO" := by rw [hUE]; decide
    simp [Allocation.init, hnotVO, List.mem_filter, mem_boolTuples]
  · intro hVO
    constructor
    · intro v
      simp [Allocation.init, hVO, List.mem_filter, mem_boolTuples]
    · intro hne
      have hn : s.times.length ≠ 0 := by
        simpa [List.length_eq_zero] using hne
      simp only [Allocation.init, hVO, if_pos, List.mem_filter]
      refine ⟨(mem_boolTuples _ _).2 (by simp), ?_⟩
      simp only [List.any_eq_true]
      exact ⟨true, List.mem_replicate.2 ⟨hn, rfl⟩, rfl⟩

/-- Witness for C8 at a concrete subject: `subjA` is a RequiredOne subject
with two slots, and `[true, false]` is one of its enumerated vectors. -/
theorem C8_enumerator_valid_vectors_witness :
    [true, false] ∈ (Allocation.init subjA).arrayList ↔
      ([true, false].length = subjA.times.length ∧
        [true, false].count true = 1) :=
  (C8_enumerator_valid_vectors subjA).2.1 rfl [true, false]

/-- **C9**: advancing a cursor positioned at the last entry of a non-empty
vector list sets the exhaustion flag without moving the position (the current
vector read through `get_array` is unchanged), and a subsequent
`reset_end_status` clears the flag, again without moving the position;
when the flag was clear to begin with, the advance/reset pair restores the
cursor exactly. -/
theorem C9_cursor_end_idempotent (a : Allocation)
    (hne : a.arrayList ≠ []) (hlast : a.index = a.arrayList.length - 1) :
    a.advance.has_reached_end = true ∧
    a.advance.index = a.index ∧
    a.advance.get_array = a.get_array ∧
    a.advance.reset_end_status.has_reached_end = false ∧
    a.advance.reset_end_status.index = a.index ∧
    (a.has_reached_end = false → a.advance.reset_end_status = a) := by
  have hnot : ¬ a.index < a.arrayList.length - 1 := by omega
  refine ⟨?_, ?_, ?_, ?_, ?_, ?_⟩ <;>
    simp [Allocation.advance, Allocation.reset_end_status, Allocation.get_array,
      hnot]
  intro hflag
  cases a
  simp_all

/-- Witness for C9 at a concrete cursor: `subjB`'s fresh cursor holds a single
vector, so it is positioned at the last entry. -/
theorem C9_cursor_end_idempotent_witness :
    (Allocation.init subjB).advance.has_reached_end = true ∧
    (Allocation.init subjB).advance.reset_end_status = Allocation.init subjB :=
  ⟨(C9_cursor_end_idempotent (Allocation.init subjB) (by decide) (by decide)).1,
   (C9_cursor_end_idempotent (Allocation.init subjB) (by decide)
      (by decide)).2.2.2.2.2 (by decide)⟩

/-- **C10**: slot ranges are half-open in both `is_free` and `fill`: the ticks
scanned or written are `start, start + 5, …`, strictly below `end`
(first conjunct); `fill` writes exactly those ticks (second), `is_free`
succeeds exactly when all those ticks are empty (third); consequently a slot
ending exactly where another begins never conflicts with it: filling `(a, b)`
leaves the freeness of `(b, c)` unchanged (fourth), and when both ranges are
free, both can be allocated (fifth). -/
theorem C10_half_open_slot_ranges :
    (∀ s e u : Nat, u ∈ slotTicks s e ↔ ∃ k, u = s + 5 * k ∧ u < e) ∧
    (∀ (g : Grid) (subject : Subject) (st : Slot) (u : Nat),
      grid_lookup (Schedule.fill g subject st) u =
        if u ∈ slotTicks st.1 st.2 then some subject.name
        else grid_lookup g u) ∧
    (∀ (g : Grid) (st : Slot),
      Schedule.is_free g st = some true ↔
        ∀ u ∈ slotTicks st.1 st.2, grid_lookup g u = some "") ∧
    (∀ (g : Grid) (subject : Subject) (a b c : Nat),
      Schedule.is_free (Schedule.fill g subject (a, b)) (b, c) =
        Schedule.is_free g (b, c)) ∧
    (∀ (g : Grid) (s₁ : Subject) (a b c : Nat),
      Schedule.is_free g (a, b) = some true →
      Schedule.is_free g (b, c) = some true →
      Schedule.is_free (Schedule.fill g s₁ (a, b)) (b, c) = some true) := by
  have hdisj : ∀ (g : Grid) (subject : Subject) (a b c : Nat),
      Schedule.is_free (Schedule.fill g subject (a, b)) (b, c) =
        Schedule.is_free g (b, c) := by
    intro g subject a b c
    apply is_free_congr
    intro u hu
    obtain ⟨k, rfl, _⟩ := mem_slotTicks.1 hu
    rw [grid_lookup_fill]
    have : (b + 5 * k) ∉ slotTicks a b := by
      intro hc
      obtain ⟨k2, he, hlt⟩ := mem_slotTicks.1 hc
      omega
    simp [this]
  refine ⟨fun _ _ _ => mem_slotTicks, grid_lookup_fill, is_free_true_iff,
    hdisj, ?_⟩
  intro g s₁ a b c _ h2
  rw [hdisj g s₁ a b c]
  exact h2

/-- Witness for C10 at concrete data: on the empty grid, after `subjA` fills
8:00–8:30 of day 2, the adjacent range 8:30–9:00 is still free. -/
theorem C10_half_open_slot_ranges_witness :
    Schedule.is_free
        (Schedule.fill Schedule.empty_schedule subjA (3360, 3390))
        (3390, 3420) = some true :=
  C10_half_open_slot_ranges.2.2.2.2 Schedule.empty_schedule subjA 3360 3390 3420
    (by decide) (by decide)

/-! ### Helper lemmas: the materializer never overwrites an occupied tick -/

theorem fill_keeps_occupied (g : Grid) (subject : Subject) (st : Slot)
    (u : Nat) (v : String) (hfree : Schedule.is_free g st = some true)
    (hv : grid_lookup g u = some v) (hne : v ≠ "") :
    grid_lookup (Schedule.fill g subject st) u = some v := by
  rw [grid_lookup_fill]
  by_cases hm : u ∈ slotTicks st.1 st.2
  · have hem := (is_free_true_iff g st).1 hfree u hm
    rw [hem] at hv
    exact absurd (Option.some.inj hv) (fun h => hne h.symm)
  · simpa [hm] using hv

theorem pass1Slots_keeps (subject : Subject) :
    ∀ (l : List (Slot × Bool)) (g : Grid) (al : Finset Slot) (u : Nat)
      (v : String), v ≠ "" → grid_lookup g u = some v →
      grid_lookup (Schedule.pass1Slots subject l g al).1 u = some v := by
  intro l
  induction l with
  | nil => intro g al u v _ hv; exact hv
  | cons p rest ih =>
      obtain ⟨st, sel⟩ := p
      intro g al u v hne hv
      by_cases hsel : sel
      · subst hsel
        by_cases hfree : Schedule.is_free g st = some true
        · simp only [Schedule.pass1Slots, if_pos rfl, hfree, if_true]
          exact ih _ _ u v hne (fill_keeps_occupied g subject st u v hfree hv hne)
        · simp only [Schedule.pass1Slots, if_pos rfl, hfree, if_false]
          exact ih _ _ u v hne hv
      · have hsel' : sel = false := by simpa using hsel
        subst hsel'
        simp only [Schedule.pass1Slots, Bool.false_eq_true, if_false]
        exact ih _ _ u v hne hv

theorem pass1_keeps :
    ∀ (pairs : List (Subject × List Bool)) (g : Grid) (u : Nat) (v : String),
      v ≠ "" → grid_lookup g u = some v →
      grid_lookup (Schedule.pass1 pairs g).1 u = some v := by
  intro pairs
  induction pairs with
  | nil => intro g u v _ hv; exact hv
  | cons p rest ih =>
      obtain ⟨subject, vec⟩ := p
      intro g u v hne hv
      simp only [Schedule.pass1]
      exact ih _ u v hne (pass1Slots_keeps subject _ g ∅ u v hne hv)

theorem pass2Slots_keeps (subject : Subject) :
    ∀ (l : List Slot) (g : Grid) (al : Finset Slot) (u : Nat) (v : String),
      v ≠ "" → grid_lookup g u = some v →
      grid_lookup (Schedule.pass2Slots subject l g al).1 u = some v := by
  intro l
  induction l with
  | nil => intro g al u v _ hv; exact hv
  | cons st rest ih =>
      intro g al u v hne hv
      by_cases hc : st ∉ al ∧ Schedule.is_free g st = some true
      · simp only [Schedule.pass2Slots, if_pos hc]
        exact ih _ _ u v hne (fill_keeps_occupied g subject st u v hc.2 hv hne)
      · simp only [Schedule.pass2Slots, if_neg hc]
        exact ih _ _ u v hne hv

theorem pass2_keeps :
    ∀ (pairs : List (Subject × Finset Slot)) (g : Grid) (u : Nat) (v : String),
      v ≠ "" → grid_lookup g u = some v →
      grid_lookup (Schedule.pass2 pairs g).1 u = some v := by
  intro pairs
  induction pairs with
  | nil => intro g u v _ hv; exact hv
  | cons p rest ih =>
      obtain ⟨subject, al⟩ := p
      intro g u v hne hv
      by_cases hvo : subject.type = "VO"
      · simp only [Schedule.pass2, if_pos hvo]
        exact ih _ u v hne (pass2Slots_keeps subject _ g al u v hne hv)
      · simp only [Schedule.pass2, if_neg hvo]
        exact ih _ u v hne hv

/-! ### Helper lemmas: materialized grids are never the empty dict -/

theorem grid_set_ne_nil (g : Grid) (t : Nat) (v : String) :
    grid_set g t v ≠ [] := by
  cases g with
  | nil => simp [grid_set]
  | cons p rest =>
      obtain ⟨k, w⟩ := p
      by_cases h : k = t <;> simp [grid_set, h]

theorem fillFromGo_ne_nil (name : String) :
    ∀ (steps : Nat) (g : Grid) (t e : Nat), g ≠ [] →
      Schedule.fillFromGo name steps g t e ≠ [] := by
  intro steps
  induction steps with
  | zero => intro g t e h; exact h
  | succ st ih =>
      intro g t e h
      by_cases hlt : t < e
      · simp only [Schedule.fillFromGo, hlt, if_true]
        exact ih _ _ _ (grid_set_ne_nil g t name)
      · simpa [Schedule.fillFromGo, hlt] using h

theorem fill_ne_nil (g : Grid) (subject : Subject) (st : Slot) (h : g ≠ []) :
    Schedule.fill g subject st ≠ [] :=
  fillFromGo_ne_nil subject.name _ g st.1 st.2 h

theorem pass1Slots_ne_nil (subject : Subject) :
    ∀ (l : List (Slot × Bool)) (g : Grid) (al : Finset Slot), g ≠ [] →
      (Schedule.pass1Slots subject l g al).1 ≠ [] := by
  intro l
  induction l with
  | nil => intro g al h; exact h
  | cons p rest ih =>
      obtain ⟨st, sel⟩ := p
      intro g al h
      by_cases hsel : sel
      · subst hsel
        by_cases hfree : Schedule.is_free g st = some true
        · simp only [Schedule.pass1Slots, if_pos rfl, hfree, if_true]
          exact ih _ _ (fill_ne_nil g subject st h)
        · simp only [Schedule.pass1Slots, if_pos rfl, hfree, if_false]
          exact ih _ _ h
      · have hsel' : sel = false := by simpa using hsel
        subst hsel'
        simp only [Schedule.pass1Slots, Bool.false_eq_true, if_false]
        exact ih _ _ h

theorem pass1_ne_nil :
    ∀ (pairs : List (Subject × List Bool)) (g : Grid), g ≠ [] →
      (Schedule.pass1 pairs g).1 ≠ [] := by
  intro pairs
  induction pairs with
  | nil => intro g h; exact h
  | cons p rest ih =>
      obtain ⟨subject, vec⟩ := p
      intro g h
      simp only [Schedule.pass1]
      exact ih _ (pass1Slots_ne_nil subject _ g ∅ h)

theorem pass2Slots_ne_nil (subject : Subject) :
    ∀ (l : List Slot) (g : Grid) (al : Finset Slot), g ≠ [] →
      (Schedule.pass2Slots subject l g al).1 ≠ [] := by
  intro l
  induction l with
  | nil => intro g al h; exact h
  | cons st rest ih =>
      intro g al h
      by_cases hc : st ∉ al ∧ Schedule.is_free g st = some true
      · simp only [Schedule.pass2Slots, if_pos hc]
        exact ih _ _ (fill_ne_nil g subject st h)
      · simp only [Schedule.pass2Slots, if_neg hc]
        exact ih _ _ h

theorem pass2_ne_nil :
    ∀ (pairs : List (Subject × Finset Slot)) (g : Grid), g ≠ [] →
      (Schedule.pass2 pairs g).1 ≠ [] := by
  intro pairs
  induction pairs with
  | nil => intro g h; exact h
  | cons p rest ih =>
      obtain ⟨subject, al⟩ := p
      intro g h
      by_cases hvo : subject.type = "VO"
      · simp only [Schedule.pass2, if_pos hvo]
        exact ih _ (pass2Slots_ne_nil subject _ g al h)
      · simp only [Schedule.pass2, if_neg hvo]
        exact ih _ h

theorem empty_schedule_ne_nil : Schedule.empty_schedule ≠ [] := by decide

theorem materialize_grid_ne_nil (subjects : List Subject)
    (arrays : List (List Bool)) :
    (Schedule.materialize subjects arrays).1 ≠ [] := by
  unfold Schedule.materialize
  exact pass2_ne_nil _ _ (pass1_ne_nil _ _ empty_schedule_ne_nil)

/-! ### Helper lemmas: allocated sets versus declared slots and vectors -/

theorem zip_fst_mem : ∀ (l1 : List Slot) (l2 : List Bool) (x : Slot),
    x ∈ (l1.zip l2).map Prod.fst → x ∈ l1 := by
  intro l1
  induction l1 with
  | nil => intro l2 x hx; simp at hx
  | cons a rest ih =>
      intro l2 x hx
      cases l2 with
      | nil => simp at hx
      | cons b l2' =>
          simp only [List.zip_cons_cons, List.map_cons, List.mem_cons] at hx
          rcases hx with rfl | hx
          · exact List.mem_cons_self _ _
          · exact List.mem_cons_of_mem _ (ih l2' x hx)

theorem zip_snd_count_le :
    ∀ (l1 : List Slot) (l2 : List Bool),
      ((l1.zip l2).map Prod.snd).count true ≤ l2.count true := by
  intro l1
  induction l1 with
  | nil => intro l2; simp
  | cons a rest ih =>
      intro l2
      cases l2 with
      | nil => simp
      | cons b l2' =>
          simp only [List.zip_cons_cons, List.map_cons, List.count_cons]
          have := ih l2'
          by_cases hb : b = true <;> simp [hb] <;> omega

theorem pass1Slots_allocated_sub (subject : Subject) :
    ∀ (l : List (Slot × Bool)) (g : Grid) (al : Finset Slot),
      (Schedule.pass1Slots subject l g al).2 ⊆
        al ∪ ((l.map Prod.fst).toFinset) := by
  intro l
  induction l with
  | nil => intro g al; simp [Schedule.pass1Slots]
  | cons p rest ih =>
      obtain ⟨st, sel⟩ := p
      intro g al x
      by_cases hsel : sel
      · subst hsel
        by_cases hfree : Schedule.is_free g st = some true
        · simp only [Schedule.pass1Slots, if_pos rfl, hfree, if_true]
          intro hx
          have := ih _ _ hx
          simp only [Subject.mark_allocated, Finset.mem_union, Finset.mem_insert,
            List.toFinset_cons, List.map_cons] at this ⊢
          tauto
        · simp only [Schedule.pass1Slots, if_pos rfl, hfree, if_false]
          intro hx
          have := ih _ _ hx
          simp only [Finset.mem_union, Finset.mem_insert, List.toFinset_cons,
            List.map_cons] at this ⊢
          tauto
      · have hsel' : sel = false := by simpa using hsel
        subst hsel'
        simp only [Schedule.pass1Slots, Bool.false_eq_true, if_false]
        intro hx
        have := ih _ _ hx
        simp only [Finset.mem_union, Finset.mem_insert, List.toFinset_cons,
          List.map_cons] at this ⊢
        tauto

theorem pass2Slots_allocated_sub (subject : Subject) :
    ∀ (l : List Slot) (g : Grid) (al : Finset Slot),
      (Schedule.pass2Slots subject l g al).2 ⊆ al ∪ l.toFinset := by
  intro l
  induction l with
  | nil => intro g al; simp [Schedule.pass2Slots]
  | cons st rest ih =>
      intro g al x
      by_cases hc : st ∉ al ∧ Schedule.is_free g st = some true
      · simp only [Schedule.pass2Slots, if_pos hc]
        intro hx
        have := ih _ _ hx
        simp only [Subject.mark_allocated, Finset.mem_union, Finset.mem_insert,
          List.toFinset_cons] at this ⊢
        tauto
      · simp only [Schedule.pass2Slots, if_neg hc]
        intro hx
        have := ih _ _ hx
        simp only [Finset.mem_union, Finset.mem_insert, List.toFinset_cons]
          at this ⊢
        tauto

theorem pass1Slots_card_le (subject : Subject) :
    ∀ (l : List (Slot × Bool)) (g : Grid) (al : Finset Slot),
      (Schedule.pass1Slots subject l g al).2.card ≤
        al.card + (l.map Prod.snd).count true := by
  intro l
  induction l with
  | nil => intro g al; simp [Schedule.pass1Slots]
  | cons p rest ih =>
      obtain ⟨st, sel⟩ := p
      intro g al
      by_cases hsel : sel
      · subst hsel
        by_cases hfree : Schedule.is_free g st = some true
        · simp only [Schedule.pass1Slots, if_pos rfl, hfree, if_true]
          have h1 := ih (Schedule.fill g subject st)
            (Subject.mark_allocated al st)
          have h2 : (Subject.mark_allocated al st).card ≤ al.card + 1 :=
            Finset.card_insert_le st al
          simp [List.map_cons, List.count_cons]
          omega
        · simp only [Schedule.pass1Slots, if_pos rfl, hfree, if_false]
          have h1 := ih g al
          simp [List.map_cons, List.count_cons]
          omega
      · have hsel' : sel = false := by simpa using hsel
        subst hsel'
        simp only [Schedule.pass1Slots, Bool.false_eq_true, if_false]
        have h1 := ih g al
        simp [List.map_cons, List.count_cons]
        omega

theorem pass1_zip_sub :
    ∀ (subjects : List Subject) (arrays : List (List Bool)) (g : Grid),
      ∀ p ∈ subjects.zip (Schedule.pass1 (subjects.zip arrays) g).2,
        p.2 ⊆ p.1.times.toFinset := by
  intro subjects
  induction subjects with
  | nil => intro arrays g p hp; simp at hp
  | cons subject rest ih =>
      intro arrays g p hp
      cases arrays with
      | nil => simp [Schedule.pass1] at hp
      | cons vec arest =>
          simp only [List.zip_cons_cons, Schedule.pass1] at hp
          rcases List.mem_cons.1 hp with heq | hmem
          · subst heq
            intro x hx
            have hsub := pass1Slots_allocated_sub subject
              (subject.times.zip vec) g ∅ hx
            simp only [Finset.mem_union, Finset.not_mem_empty, false_or,
              List.mem_toFinset] at hsub
            exact List.mem_toFinset.2 (zip_fst_mem subject.times vec x hsub)
          · exact ih arest _ p hmem

theorem pass2_zip_sub :
    ∀ (subjects : List Subject) (als : List (Finset Slot)) (g : Grid),
      (∀ p ∈ subjects.zip als, p.2 ⊆ p.1.times.toFinset) →
      ∀ p ∈ subjects.zip (Schedule.pass2 (subjects.zip als) g).2,
        p.2 ⊆ p.1.times.toFinset := by
  intro subjects
  induction subjects with
  | nil => intro als g _ p hp; simp at hp
  | cons subject rest ih =>
      intro als g hals p hp
      cases als with
      | nil => simp [Schedule.pass2] at hp
      | cons al arest =>
          simp only [List.zip_cons_cons] at hp hals
          by_cases hvo : subject.type = "VO"
          · simp only [Schedule.pass2, if_pos hvo] at hp
            rcases List.mem_cons.1 hp with heq | hmem
            · subst heq
              intro x hx
              have hsub := pass2Slots_allocated_sub subject subject.times g al hx
              simp only [Finset.mem_union, List.mem_toFinset] at hsub
              rcases hsub with hsub | hsub
              · exact hals (subject, al) (List.mem_cons_self _ _) hsub
              · exact List.mem_toFinset.2 hsub
            · exact ih arest _ (fun q hq => hals q (List.mem_cons_of_mem _ hq))
                p hmem
          · simp only [Schedule.pass2, if_neg hvo] at hp
            rcases List.mem_cons.1 hp with heq | hmem
            · subst heq
              exact hals (subject, al) (List.mem_cons_self _ _)
            · exact ih arest _ (fun q hq => hals q (List.mem_cons_of_mem _ hq))
                p hmem

theorem pass2_keeps_nonVO :
    ∀ (subjects : List Subject) (als : List (Finset Slot)) (g : Grid),
      ∀ p ∈ subjects.zip (Schedule.pass2 (subjects.zip als) g).2,
        p.1.type ≠ "VO" → (p.1, p.2) ∈ subjects.zip als := by
  intro subjects
  induction subjects with
  | nil => intro als g p hp; simp at hp
  | cons subject rest ih =>
      intro als g p hp hnv
      cases als with
      | nil => simp [Schedule.pass2] at hp
      | cons al arest =>
          simp only [List.zip_cons_cons] at hp ⊢
          by_cases hvo : subject.type = "VO"
          · simp only [Schedule.pass2, if_pos hvo] at hp
            rcases List.mem_cons.1 hp with heq | hmem
            · exfalso
              apply hnv
              rw [heq] at hnv ⊢
              exact hvo
            · exact List.mem_cons_of_mem _ (ih arest _ p hmem hnv)
          · simp only [Schedule.pass2, if_neg hvo] at hp
            rcases List.mem_cons.1 hp with heq | hmem
            · subst heq
              exact List.mem_cons_self _ _
            · exact List.mem_cons_of_mem _ (ih arest _ p hmem hnv)

theorem pass1_card_le_vec :
    ∀ (subjects : List Subject) (arrays : List (List Bool)) (g : Grid),
      ∀ p ∈ subjects.zip (Schedule.pass1 (subjects.zip arrays) g).2,
        ∃ vec, (p.1, vec) ∈ subjects.zip arrays ∧
          p.2.card ≤ vec.count true := by
  intro subjects
  induction subjects with
  | nil => intro arrays g p hp; simp at hp
  | cons subject rest ih =>
      intro arrays g p hp
      cases arrays with
      | nil => simp [Schedule.pass1] at hp
      | cons vec arest =>
          simp only [List.zip_cons_cons, Schedule.pass1] at hp
          rcases List.mem_cons.1 hp with heq | hmem
          · subst heq
            refine ⟨vec, List.mem_cons_self _ _, ?_⟩
            show (Schedule.pass1Slots subject (subject.times.zip vec) g ∅).2.card ≤
              vec.count true
            have h1 := pass1Slots_card_le subject (subject.times.zip vec) g ∅
            have h2 := zip_snd_count_le subject.times vec
            simp only [Finset.card_empty, Nat.zero_add] at h1
            omega
          · obtain ⟨vec2, hv2, hc2⟩ := ih arest _ p hmem
            exact ⟨vec2, List.mem_cons_of_mem _ hv2, hc2⟩

/-! ### Helper lemmas: the classification loop -/

theorem is_partly_complete_iff (al : Finset Slot) :
    Subject.is_partly_complete al = true ↔ al ≠ ∅ := by
  simp [Subject.is_partly_complete, Finset.one_le_card,
    Finset.nonempty_iff_ne_empty]

theorem is_complete_nonVO (s : Subject) (al : Finset Slot)
    (h : s.type ≠ "VO") :
    Subject.is_complete s al = Subject.is_partly_complete al := by
  simp [Subject.is_complete, Subject.is_partly_complete, h]

theorem is_complete_VO_iff (s : Subject) (al : Finset Slot)
    (h : s.type = "VO") :
    Subject.is_complete s al = true ↔ al = s.times.toFinset := by
  simp [Subject.is_complete, h]

theorem classify_cons_fail (subject : Subject) (al : Finset Slot)
    (rest : List (Subject × Finset Slot))
    (h : Subject.is_partly_complete al = false) :
    Schedule.classify ((subject, al) :: rest) =
      (true, (Schedule.classify rest).2) := by
  simp [Schedule.classify, h]

theorem classify_cons_inc (subject : Subject) (al : Finset Slot)
    (rest : List (Subject × Finset Slot))
    (h1 : Subject.is_partly_complete al = true)
    (h2 : Subject.is_complete subject al = false) :
    Schedule.classify ((subject, al) :: rest) =
      ((Schedule.classify rest).1, true) := by
  simp [Schedule.classify, h1, h2]

theorem classify_cons_ok (subject : Subject) (al : Finset Slot)
    (rest : List (Subject × Finset Slot))
    (h1 : Subject.is_partly_complete al = true)
    (h2 : Subject.is_complete subject al = true) :
    Schedule.classify ((subject, al) :: rest) = Schedule.classify rest := by
  simp [Schedule.classify, h1, h2]

theorem classify_fst_iff : ∀ pairs : List (Subject × Finset Slot),
    (Schedule.classify pairs).1 = true ↔ ∃ p ∈ pairs, p.2 = ∅ := by
  intro pairs
  induction pairs with
  | nil => simp [Schedule.classify]
  | cons q rest ih =>
      obtain ⟨subject, al⟩ := q
      by_cases h1 : Subject.is_partly_complete al = true
      · have hne : al ≠ ∅ := (is_partly_complete_iff al).1 h1
        have hsplit : Schedule.classify ((subject, al) :: rest) =
            Schedule.classify rest ∨
            Schedule.classify ((subject, al) :: rest) =
              ((Schedule.classify rest).1, true) := by
          by_cases h2 : Subject.is_complete subject al = true
          · exact Or.inl (classify_cons_ok subject al rest h1 h2)
          · exact Or.inr (classify_cons_inc subject al rest h1
              (Bool.eq_false_iff.2 h2))
        have hfst : (Schedule.classify ((subject, al) :: rest)).1 =
            (Schedule.classify rest).1 := by
          rcases hsplit with he | he <;> rw [he]
        rw [hfst, ih]
        simp only [List.mem_cons]
        constructor
        · rintro ⟨p, hp, he⟩; exact ⟨p, Or.inr hp, he⟩
        · rintro ⟨p, rfl | hp, he⟩
          · exact absurd he hne
          · exact ⟨p, hp, he⟩
      · have hemp : al = ∅ := by
          by_contra hc
          exact h1 ((is_partly_complete_iff al).2 hc)
        rw [classify_cons_fail subject al rest (Bool.eq_false_iff.2 h1)]
        simp only [List.mem_cons]
        constructor
        · intro _; exact ⟨(subject, al), Or.inl rfl, hemp⟩
        · intro _; trivial

theorem classify_snd_iff : ∀ pairs : List (Subject × Finset Slot),
    (Schedule.classify pairs).2 = true ↔
      ∃ p ∈ pairs, p.2 ≠ ∅ ∧ Subject.is_complete p.1 p.2 = false := by
  intro pairs
  induction pairs with
  | nil => simp [Schedule.classify]
  | cons q rest ih =>
      obtain ⟨subject, al⟩ := q
      by_cases h1 : Subject.is_partly_complete al = true
      · have hne : al ≠ ∅ := (is_partly_complete_iff al).1 h1
        by_cases h2 : Subject.is_complete subject al = true
        · rw [classify_cons_ok subject al rest h1 h2, ih]
          simp only [List.mem_cons]
          constructor
          · rintro ⟨p, hp, he⟩; exact ⟨p, Or.inr hp, he⟩
          · rintro ⟨p, rfl | hp, he⟩
            · rw [h2] at he
              exact absurd he.2 (by simp)
            · exact ⟨p, hp, he⟩
        · rw [classify_cons_inc subject al rest h1 (Bool.eq_false_iff.2 h2)]
          simp only [List.mem_cons]
          constructor
          · intro _
            exact ⟨(subject, al), Or.inl rfl, hne, Bool.eq_false_iff.2 h2⟩
          · intro _; trivial
      · have hemp : al = ∅ := by
          by_contra hc
          exact h1 ((is_partly_complete_iff al).2 hc)
        rw [classify_cons_fail subject al rest (Bool.eq_false_iff.2 h1)]
        rw [ih]
        simp only [List.mem_cons]
        constructor
        · rintro ⟨p, hp, he⟩; exact ⟨p, Or.inr hp, he⟩
        · rintro ⟨p, rfl | hp, he⟩
          · exact absurd hemp he.1
          · exact ⟨p, hp, he⟩

/-! ### Helper lemmas: `create_schedule` outcome characterizations -/

theorem materialize_zip_sub (subjects : List Subject)
    (arrays : List (List Bool)) :
    ∀ p ∈ subjects.zip (Schedule.materialize subjects arrays).2,
      p.2 ⊆ p.1.times.toFinset := by
  intro p hp
  exact pass2_zip_sub subjects
    (Schedule.pass1 (subjects.zip arrays) Schedule.empty_schedule).2
    (Schedule.pass1 (subjects.zip arrays) Schedule.empty_schedule).1
    (pass1_zip_sub subjects arrays Schedule.empty_schedule) p hp

theorem create_schedule_none_iff (subjects : List Subject)
    (arrays : List (List Bool)) :
    (Schedule.create_schedule subjects arrays).1 = none ↔
      ∃ p ∈ subjects.zip (Schedule.materialize subjects arrays).2, p.2 = ∅ := by
  rw [← classify_fst_iff]
  unfold Schedule.create_schedule
  cases hc : (Schedule.classify
      (subjects.zip (Schedule.materialize subjects arrays).2)).1 <;>
    simp [hc]

theorem create_schedule_incomplete_iff (subjects : List Subject)
    (arrays : List (List Bool)) :
    (Schedule.create_schedule subjects arrays).2 = true ↔
      ∃ p ∈ subjects.zip (Schedule.materialize subjects arrays).2,
        p.1.type = "VO" ∧ p.2 ≠ ∅ ∧ p.2 ⊂ p.1.times.toFinset := by
  have hstep : (Schedule.create_schedule subjects arrays).2 =
      (Schedule.classify
        (subjects.zip (Schedule.materialize subjects arrays).2)).2 := rfl
  rw [hstep, classify_snd_iff]
  constructor
  · rintro ⟨p, hp, hne, hcomp⟩
    by_cases hvo : p.1.type = "VO"
    · refine ⟨p, hp, hvo, hne, ?_⟩
      rw [Finset.ssubset_iff_subset_ne]
      refine ⟨materialize_zip_sub subjects arrays p hp, ?_⟩
      intro he
      rw [((is_complete_VO_iff p.1 p.2 hvo).2 he)] at hcomp
      cases hcomp
    · exfalso
      rw [is_complete_nonVO p.1 p.2 hvo, (is_partly_complete_iff p.2).2 hne]
        at hcomp
      cases hcomp
  · rintro ⟨p, hp, hvo, hne, hss⟩
    refine ⟨p, hp, hne, ?_⟩
    rw [Bool.eq_false_iff]
    intro hc
    have := (is_complete_VO_iff p.1 p.2 hvo).1 hc
    rw [Finset.ssubset_iff_subset_ne] at hss
    exact hss.2 this

theorem process_candidate_failed (subjects : List Subject) (s : PercState)
    (pc : List (List Bool))
    (hsaved : ∀ e ∈ s.saved_schedules, e.table ≠ none)
    (htab : (mk_schedule subjects pc).table = none) :
    process_candidate subjects s pc = s := by
  have hdup : is_duplicate subjects s pc = false := by
    rw [is_duplicate, List.any_eq_false]
    intro e he
    rw [htab]
    cases het : e.table with
    | none => exact absurd het (hsaved e he)
    | some g => simp
  have hfail : is_failed subjects pc = true := by
    rw [is_failed, htab]
  simp [process_candidate, hdup, hfail]

/-! ### Claims C5 and C7 -/

/-- **C5**: for every materialized candidate, exactly one of three outcomes:
the table is `none` (the candidate fails) precisely when some subject ended
with an empty allocated set; the `is_incomplete` flag is set precisely when
some `"VO"` subject ended with a nonempty proper subset of its declared slot
set (allocated sets always sit below the declared slots, third conjunct);
and a failed candidate leaves the run state untouched — not stored and not
counted as a duplicate (fourth conjunct). -/
theorem C5_classifier_trichotomy (subjects : List Subject)
    (arrays : List (List Bool)) :
    ((Schedule.create_schedule subjects arrays).1 = none ↔
      ∃ p ∈ subjects.zip (Schedule.materialize subjects arrays).2,
        p.2 = ∅) ∧
    ((Schedule.create_schedule subjects arrays).2 = true ↔
      ∃ p ∈ subjects.zip (Schedule.materialize subjects arrays).2,
        p.1.type = "VO" ∧ p.2 ≠ ∅ ∧ p.2 ⊂ p.1.times.toFinset) ∧
    (∀ p ∈ subjects.zip (Schedule.materialize subjects arrays).2,
      p.2 ⊆ p.1.times.toFinset) ∧
    (∀ (s : PercState) (pc : List (List Bool)),
      (∀ e ∈ s.saved_schedules, e.table ≠ none) →
      (mk_schedule subjects pc).table = none →
      process_candidate subjects s pc = s) :=
  ⟨create_schedule_none_iff subjects arrays,
   create_schedule_incomplete_iff subjects arrays,
   materialize_zip_sub subjects arrays,
   fun s pc h1 h2 => process_candidate_failed subjects s pc h1 h2⟩

/-- Witness for C5 at concrete data: `subjB`'s only slot collides with the
slot `subjA` selects, so the candidate fails, and processing it leaves the
initial run state unchanged. -/
theorem C5_classifier_trichotomy_witness :
    process_candidate [subjA, subjB] (init_state [subjA, subjB])
        [[true, false], [true]] = init_state [subjA, subjB] :=
  (C5_classifier_trichotomy [subjA, subjB] [[true, false], [true]]).2.2.2
    (init_state [subjA, subjB]) [[true, false], [true]]
    (by intro e he; cases he) (by decide)

/-- **C7**: under vectors drawn from the enumerator, in every non-failed
candidate each RequiredOne (`"UE"`) subject has exactly one allocated slot,
drawn from its declared slots; and the `is_incomplete` flag can only come
from a FillAll (`"VO"`) subject. -/
theorem C7_requiredone_exactly_one (subjects : List Subject)
    (arrays : List (List Bool))
    (hvalid : ∀ p ∈ subjects.zip arrays, p.2 ∈ (Allocation.init p.1).arrayList)
    (hok : (Schedule.create_schedule subjects arrays).1 ≠ none) :
    (∀ p ∈ subjects.zip (Schedule.materialize subjects arrays).2,
      p.1.type = "UE" → p.2.card = 1 ∧ p.2 ⊆ p.1.times.toFinset) ∧
    ((Schedule.create_schedule subjects arrays).2 = true →
      ∃ p ∈ subjects.zip (Schedule.materialize subjects arrays).2,
        p.1.type = "VO" ∧ p.2 ≠ ∅ ∧ p.2 ⊂ p.1.times.toFinset) := by
  constructor
  · intro p hp hUE
    have hnv : p.1.type ≠ "VO" := by rw [hUE]; decide
    have hkeep : (p.1, p.2) ∈ subjects.zip
        (Schedule.pass1 (subjects.zip arrays) Schedule.empty_schedule).2 :=
      pass2_keeps_nonVO subjects
        (Schedule.pass1 (subjects.zip arrays) Schedule.empty_schedule).2
        (Schedule.pass1 (subjects.zip arrays) Schedule.empty_schedule).1
        p hp hnv
    obtain ⟨vec, hvmem, hcard⟩ :=
      pass1_card_le_vec subjects arrays Schedule.empty_schedule (p.1, p.2) hkeep
    have hcard2 : p.2.card ≤ vec.count true := hcard
    have hval := hvalid (p.1, vec) hvmem
    have hcount : vec.count true = 1 := by
      simp only [Allocation.init, if_neg hnv, List.mem_filter] at hval
      simpa using hval.2
    have hne : p.2 ≠ ∅ := by
      intro hc
      exact hok ((create_schedule_none_iff subjects arrays).2 ⟨p, hp, hc⟩)
    have hpos : 1 ≤ p.2.card :=
      Finset.card_pos.2 (Finset.nonempty_iff_ne_empty.2 hne)
    refine ⟨?_, materialize_zip_sub subjects arrays p hp⟩
    omega
  · intro hinc
    exact (create_schedule_incomplete_iff subjects arrays).1 hinc

/-- Witness for C7 at concrete data: `subjA` alone, selecting its first slot:
its allocated set has exactly one element. -/
theorem C7_requiredone_exactly_one_witness :
    ((subjA, (Schedule.materialize [subjA] [[true, false]]).2.getD 0 ∅).2).card
      = 1 :=
  ((C7_requiredone_exactly_one [subjA] [[true, false]]
      (by decide) (by decide)).1
    (subjA, (Schedule.materialize [subjA] [[true, false]]).2.getD 0 ∅)
    (by decide) rfl).1

/-! ### Helper lemmas: the evaluation block and run-state invariants -/

theorem process_candidate_dup (subjects : List Subject) (s : PercState)
    (pc : List (List Bool)) (h : is_duplicate subjects s pc = true) :
    process_candidate subjects s pc =
      { s with duplicates := s.duplicates + 1 } := by
  simp [process_candidate, h]

theorem process_candidate_store (subjects : List Subject) (s : PercState)
    (pc : List (List Bool)) (hd : is_duplicate subjects s pc = false)
    (hf : is_failed subjects pc = false) :
    process_candidate subjects s pc =
      { s with
        version := s.version + 1
        saved_schedules :=
          s.saved_schedules ++ [mk_schedule subjects pc] } := by
  simp [process_candidate, hd, hf]

theorem process_candidate_discard (subjects : List Subject) (s : PercState)
    (pc : List (List Bool)) (hd : is_duplicate subjects s pc = false)
    (hf : is_failed subjects pc = true) :
    process_candidate subjects s pc = s := by
  simp [process_candidate, hd, hf]

/-- The fields of the run state that the candidate-evaluation block governs:
saved schedules, duplicate counter, accepted counter. -/
def obs (s : PercState) : List Schedule × Nat × Nat :=
  (s.saved_schedules, s.duplicates, s.version)

theorem percLoop_obs_inv (P : List Schedule × Nat × Nat → Prop)
    (f : PercState → PercOut)
    (hf : ∀ s s', f s = .ok s' → P (obs s) → P (obs s')) :
    ∀ (ks : List Nat) (s s'), percLoop f ks s = .ok s' →
      P (obs s) → P (obs s') := by
  intro ks
  induction ks with
  | nil =>
      intro s s' h hP
      cases h
      exact hP
  | cons i rest ih =>
      intro s s' h hP
      simp only [percLoop] at h
      cases hf1 : f { s with
          allocations := listModify s.allocations i Allocation.advance } with
      | ok s2 =>
          rw [hf1] at h
          have h2 : P (obs s2) := hf _ _ hf1 hP
          exact ih _ _ h h2
      | crash => rw [hf1] at h; cases h
      | fuelOut => rw [hf1] at h; cases h

theorem percolate_obs_inv (subjects : List Subject)
    (P : List Schedule × Nat × Nat → Prop)
    (hstep : ∀ s pc, P (obs s) → P (obs (process_candidate subjects s pc))) :
    ∀ (fuel : Nat) (s s'), percolate subjects fuel s = .ok s' →
      P (obs s) → P (obs s') := by
  intro fuel
  induction fuel with
  | zero => intro s s' h; cases h
  | succ fuel ih =>
      intro s s' h hP
      simp only [percolate] at h
      cases hr : reset_first_flag s.allocations with
      | some allocs =>
          rw [hr] at h
          cases h
          exact hP
      | none =>
          rw [hr] at h
          dsimp only at h
          cases ha : get_arrays s.allocations with
          | none => rw [ha] at h; cases h
          | some pc =>
              rw [ha] at h
              dsimp only at h
              by_cases hmem : pc ∈ s.permutations
              · rw [if_pos hmem] at h
                cases h
                exact hP
              · rw [if_neg hmem] at h
                exact percLoop_obs_inv P (percolate subjects fuel) ih _ _ _ h
                  (hstep { s with permutations := s.permutations ++ [pc] }
                    pc hP)

theorem process_candidate_saved_inv (subjects : List Subject) (s : PercState)
    (pc : List (List Bool))
    (h : ∀ sched ∈ s.saved_schedules,
      ∃ arrays, sched = mk_schedule subjects arrays ∧ sched.table ≠ none) :
    ∀ sched ∈ (process_candidate subjects s pc).saved_schedules,
      ∃ arrays, sched = mk_schedule subjects arrays ∧ sched.table ≠ none := by
  by_cases hd : is_duplicate subjects s pc = true
  · rw [process_candidate_dup subjects s pc hd]; exact h
  · have hd2 : is_duplicate subjects s pc = false := by simpa using hd
    by_cases hf : is_failed subjects pc = true
    · rw [process_candidate_discard subjects s pc hd2 hf]; exact h
    · have hf2 : is_failed subjects pc = false := by simpa using hf
      rw [process_candidate_store subjects s pc hd2 hf2]
      intro sched hs
      rcases List.mem_append.1 hs with hs | hs
      · exact h sched hs
      · have heq := List.mem_singleton.1 hs
        subst heq
        refine ⟨pc, rfl, ?_⟩
        intro hc
        rw [is_failed, hc] at hf2
        cases hf2

/-! ### Claims C4 and C3 -/

/-- **C4**: a tick once written is never overwritten during materialization —
both passes preserve every occupied cell of the grid (first and second
conjuncts); a tick of a materialized grid carries at most one subject name
(third conjunct); and every schedule stored by a completed run from the
initial state carries a grid produced by the materializer, so the two facts
extend to every grid in the result store (fourth conjunct). -/
theorem C4_no_tick_overwritten :
    (∀ (pairs : List (Subject × List Bool)) (g : Grid) (u : Nat) (v : String),
      v ≠ "" → grid_lookup g u = some v →
      grid_lookup (Schedule.pass1 pairs g).1 u = some v) ∧
    (∀ (pairs : List (Subject × Finset Slot)) (g : Grid) (u : Nat)
      (v : String),
      v ≠ "" → grid_lookup g u = some v →
      grid_lookup (Schedule.pass2 pairs g).1 u = some v) ∧
    (∀ (subjects : List Subject) (arrays : List (List Bool)) (u : Nat)
      (v w : String),
      grid_lookup (Schedule.materialize subjects arrays).1 u = some v →
      grid_lookup (Schedule.materialize subjects arrays).1 u = some w →
      v = w) ∧
    (∀ (subjects : List Subject) (fuel : Nat) (s' : PercState),
      percolate subjects fuel (init_state subjects) = .ok s' →
      ∀ sched ∈ s'.saved_schedules,
        ∃ arrays,
          sched.table = some (Schedule.materialize subjects arrays).1) := by
  refine ⟨pass1_keeps, pass2_keeps, ?_, ?_⟩
  · intro subjects arrays u v w h1 h2
    rw [h1] at h2
    exact Option.some.inj h2
  · intro subjects fuel s' hrun sched hmem
    have hinv := percolate_obs_inv subjects
      (fun o => ∀ sched ∈ o.1,
        ∃ arrays, sched = mk_schedule subjects arrays ∧ sched.table ≠ none)
      (fun s pc hP => process_candidate_saved_inv subjects s pc hP)
      fuel _ _ hrun (by intro x hx; cases hx)
    obtain ⟨arrays, heq, hne⟩ := hinv sched hmem
    refine ⟨arrays, ?_⟩
    subst heq
    by_cases hc : (Schedule.classify
        (subjects.zip (Schedule.materialize subjects arrays).2)).1 = true
    · exfalso
      apply hne
      show (Schedule.create_schedule subjects arrays).1 = none
      simp [Schedule.create_schedule, hc]
    · have hc2 : (Schedule.classify
          (subjects.zip (Schedule.materialize subjects arrays).2)).1 =
            false := by simpa using hc
      show (Schedule.create_schedule subjects arrays).1 =
        some (Schedule.materialize subjects arrays).1
      simp [Schedule.create_schedule, hc2]

/-- Witness for C4 at concrete data: a cell pre-occupied by `"X"` survives
pass 1 even though `subjB` selects the slot covering it. -/
theorem C4_no_tick_overwritten_witness :
    grid_lookup
        (Schedule.pass1 [(subjB, [true])]
          (grid_set Schedule.empty_schedule 3360 "X")).1 3360 = some "X" :=
  C4_no_tick_overwritten.1 [(subjB, [true])]
    (grid_set Schedule.empty_schedule 3360 "X") 3360 "X"
    (by decide) (by decide)

/-- **C3**: materialization is two passes over an initially empty grid (first
conjunct: `materialize` is literally pass 1 from `empty_schedule` followed by
pass 2).  One step of pass 1 claims a selected slot whole — fill plus mark —
exactly when its entire range is currently free, skips it whole otherwise,
and never touches an unselected slot (second conjunct).  One step of pass 2
claims any not-yet-allocated slot whose range is still free, with no
reference to the selection vector (third conjunct).  Consequently a FillAll
subject's allocated set is not bounded above by its selection vector: with a
vector selecting only its first slot, `subjV` ends with both slots allocated
(fourth conjunct).  First writer wins on conflicts: when `subjA` and `subjB`
both select the slot `(3360, 3365)`, the earlier subject `subjA` gets it,
`subjB` gets nothing, and the grid carries `"A"` (fifth conjunct). -/
theorem C3_two_pass_materialization :
    (∀ (subjects : List Subject) (arrays : List (List Bool)),
      Schedule.materialize subjects arrays =
        Schedule.pass2
          (subjects.zip
            (Schedule.pass1 (subjects.zip arrays) Schedule.empty_schedule).2)
          (Schedule.pass1 (subjects.zip arrays) Schedule.empty_schedule).1) ∧
    (∀ (subject : Subject) (st : Slot) (sel : Bool)
      (rest : List (Slot × Bool)) (g : Grid) (al : Finset Slot),
      Schedule.pass1Slots subject ((st, sel) :: rest) g al =
        if sel then
          (if Schedule.is_free g st = some true then
            Schedule.pass1Slots subject rest (Schedule.fill g subject st)
              (Subject.mark_allocated al st)
          else Schedule.pass1Slots subject rest g al)
        else Schedule.pass1Slots subject rest g al) ∧
    (∀ (subject : Subject) (st : Slot) (rest : List Slot) (g : Grid)
      (al : Finset Slot),
      Schedule.pass2Slots subject (st :: rest) g al =
        if st ∉ al ∧ Schedule.is_free g st = some true then
          Schedule.pass2Slots subject rest (Schedule.fill g subject st)
            (Subject.mark_allocated al st)
        else Schedule.pass2Slots subject rest g al) ∧
    ((Schedule.materialize [subjV] [[true, false]]).2 =
        [({(3360, 3365), (3370, 3375)} : Finset Slot)] ∧
      ¬ ((Schedule.materialize [subjV] [[true, false]]).2.getD 0 ∅ ⊆
          ({(3360, 3365)} : Finset Slot))) ∧
    ((Schedule.materialize [subjA, subjB] [[true, false], [true]]).2 =
        [({(3360, 3365)} : Finset Slot), (∅ : Finset Slot)] ∧
      grid_lookup
        (Schedule.materialize [subjA, subjB] [[true, false], [true]]).1 3360 =
          some "A") := by
  refine ⟨fun _ _ => rfl, fun _ _ _ _ _ _ => rfl, fun _ _ _ _ _ => rfl,
    ⟨by decide, by decide⟩, ⟨by decide, by decide⟩⟩

/-- Witness for C3 at concrete data: the two-pass decomposition instantiated
at `subjV` with the vector `[true, false]`. -/
theorem C3_two_pass_materialization_witness :
    Schedule.materialize [subjV] [[true, false]] =
      Schedule.pass2
        ([subjV].zip
          (Schedule.pass1 ([subjV].zip [[true, false]])
            Schedule.empty_schedule).2)
        (Schedule.pass1 ([subjV].zip [[true, false]])
          Schedule.empty_schedule).1 :=
  C3_two_pass_materialization.1 [subjV] [[true, false]]

/-! ### Claim C1: a subject with an empty slot list -/

theorem init_no_flag :
    ∀ (subjects : List Subject),
      reset_first_flag (subjects.map Allocation.init) = none := by
  intro subjects
  induction subjects with
  | nil => rfl
  | cons subject rest ih =>
      simp only [List.map_cons, reset_first_flag, Allocation.init,
        Bool.false_eq_true, if_false]
      rw [ih]

theorem init_empty_arrayList (s : Subject) (h : s.times = []) :
    (Allocation.init s).arrayList = [] := by
  simp only [Allocation.init, h, List.length_nil]
  split <;> rfl

theorem get_arrays_none :
    ∀ (allocs : List Allocation), (∃ a ∈ allocs, a.arrayList = []) →
      get_arrays allocs = none := by
  intro allocs
  induction allocs with
  | nil => rintro ⟨a, ha, _⟩; cases ha
  | cons a rest ih =>
      rintro ⟨b, hb, hbe⟩
      rcases List.mem_cons.1 hb with rfl | hb2
      · have : b.get_array = none := by
          simp [Allocation.get_array, hbe]
        simp [get_arrays, this]
      · have := ih ⟨b, hb2, hbe⟩
        simp only [get_arrays, this]
        cases a.get_array <;> rfl

/-- **C1**: for a subject with an empty slot list the enumerator does produce
an empty vector sequence (first conjunct), but the traversal layer does NOT
treat it as a data-level total failure: the very first `percolate` call reads
the current vector of the empty cursor and the `IndexError` from
`Allocation.get_array` propagates out of the solver (second conjunct — the
run crashes for every step budget, on any subject list containing such a
subject, before any candidate is evaluated). -/
theorem C1_empty_slots_crash :
    (∀ s : Subject, s.times = [] → (Allocation.init s).arrayList = []) ∧
    (∀ (subjects : List Subject), (∃ s ∈ subjects, s.times = []) →
      ∀ fuel : Nat,
        percolate subjects (fuel + 1) (init_state subjects) = .crash) := by
  refine ⟨init_empty_arrayList, ?_⟩
  rintro subjects ⟨s, hs, hse⟩ fuel
  have hget : get_arrays (subjects.map Allocation.init) = none := by
    apply get_arrays_none
    exact ⟨Allocation.init s, List.mem_map_of_mem Allocation.init hs,
      init_empty_arrayList s hse⟩
  have halloc : (init_state subjects).allocations =
      subjects.map Allocation.init := rfl
  simp only [percolate]
  rw [halloc, init_no_flag subjects]
  dsimp only
  rw [hget]

/-- Witness for C1 at concrete data: the run over `[subjEmpty]` crashes. -/
theorem C1_empty_slots_crash_witness :
    percolate [subjEmpty] 5 (init_state [subjEmpty]) = .crash :=
  C1_empty_slots_crash.2 [subjEmpty]
    ⟨subjEmpty, List.mem_singleton.2 rfl, rfl⟩ 4

/-! ### Claim C6: deduplication and the result store -/

theorem process_candidate_saved_mono (subjects : List Subject) (s : PercState)
    (pc : List (List Bool)) :
    ∃ tail, (process_candidate subjects s pc).saved_schedules =
      s.saved_schedules ++ tail := by
  by_cases hd : is_duplicate subjects s pc = true
  · exact ⟨[], by rw [process_candidate_dup subjects s pc hd]; simp⟩
  · have hd2 : is_duplicate subjects s pc = false := by simpa using hd
    by_cases hf : is_failed subjects pc = true
    · exact ⟨[], by rw [process_candidate_discard subjects s pc hd2 hf]; simp⟩
    · have hf2 : is_failed subjects pc = false := by simpa using hf
      exact ⟨[mk_schedule subjects pc],
        by rw [process_candidate_store subjects s pc hd2 hf2]⟩

theorem percLoop_saved_mono (f : PercState → PercOut)
    (hf : ∀ s s', f s = .ok s' →
      ∃ tail, s'.saved_schedules = s.saved_schedules ++ tail) :
    ∀ (ks : List Nat) (s s'), percLoop f ks s = .ok s' →
      ∃ tail, s'.saved_schedules = s.saved_schedules ++ tail := by
  intro ks
  induction ks with
  | nil =>
      intro s s' h
      cases h
      exact ⟨[], by simp⟩
  | cons i rest ih =>
      intro s s' h
      simp only [percLoop] at h
      cases hf1 : f { s with
          allocations := listModify s.allocations i Allocation.advance } with
      | ok s2 =>
          rw [hf1] at h
          obtain ⟨t1, ht1⟩ := hf _ _ hf1
          obtain ⟨t2, ht2⟩ := ih _ _ h
          refine ⟨t1 ++ t2, ?_⟩
          rw [ht2]
          dsimp only
          rw [ht1]
          dsimp only
          rw [List.append_assoc]
      | crash => rw [hf1] at h; cases h
      | fuelOut => rw [hf1] at h; cases h

theorem percolate_saved_mono (subjects : List Subject) :
    ∀ (fuel : Nat) (s s' : PercState),
      percolate subjects fuel s = .ok s' →
      ∃ tail, s'.saved_schedules = s.saved_schedules ++ tail := by
  intro fuel
  induction fuel with
  | zero => intro s s' h; cases h
  | succ fuel ih =>
      intro s s' h
      simp only [percolate] at h
      cases hr : reset_first_flag s.allocations with
      | some allocs =>
          rw [hr] at h
          cases h
          exact ⟨[], by simp⟩
      | none =>
          rw [hr] at h
          dsimp only at h
          cases ha : get_arrays s.allocations with
          | none => rw [ha] at h; cases h
          | some pc =>
              rw [ha] at h
              dsimp only at h
              by_cases hmem : pc ∈ s.permutations
              · rw [if_pos hmem] at h
                cases h
                exact ⟨[], by simp⟩
              · rw [if_neg hmem] at h
                obtain ⟨t1, ht1⟩ := process_candidate_saved_mono subjects
                  { s with permutations := s.permutations ++ [pc] } pc
                obtain ⟨t2, ht2⟩ := percLoop_saved_mono
                  (percolate subjects fuel) ih _ _ _ h
                refine ⟨t1 ++ t2, ?_⟩
                rw [ht2, ht1]
                simp

theorem process_candidate_nodup_inv (subjects : List Subject) (s : PercState)
    (pc : List (List Bool))
    (h : ((s.saved_schedules.map Schedule.table).Nodup ∧
      s.version = s.saved_schedules.length)) :
    (((process_candidate subjects s pc).saved_schedules.map
        Schedule.table).Nodup ∧
      (process_candidate subjects s pc).version =
        (process_candidate subjects s pc).saved_schedules.length) := by
  by_cases hd : is_duplicate subjects s pc = true
  · rw [process_candidate_dup subjects s pc hd]; exact h
  · have hd2 : is_duplicate subjects s pc = false := by simpa using hd
    by_cases hf : is_failed subjects pc = true
    · rw [process_candidate_discard subjects s pc hd2 hf]; exact h
    · have hf2 : is_failed subjects pc = false := by simpa using hf
      rw [process_candidate_store subjects s pc hd2 hf2]
      have hnotin : (mk_schedule subjects pc).table ∉
          s.saved_schedules.map Schedule.table := by
        rw [is_duplicate, List.any_eq_false] at hd2
        intro hc
        obtain ⟨e, he, hte⟩ := List.mem_map.1 hc
        have := hd2 e he
        rw [← hte] at this
        simp at this
      constructor
      · show ((s.saved_schedules ++ [mk_schedule subjects pc]).map
          Schedule.table).Nodup
        rw [List.map_append]
        refine List.Nodup.append h.1 (List.nodup_singleton _) ?_
        intro x hx hx2
        simp only [List.map_cons, List.map_nil, List.mem_singleton] at hx2
        subst hx2
        exact hnotin hx
      · show s.version + 1 = (s.saved_schedules ++ [mk_schedule subjects pc]).length
        rw [List.length_append, h.2]
        rfl

/-- **C6**: a non-failed candidate equal (grid-for-grid) to a stored schedule
increments the duplicate counter and is not stored (first conjunct), and the
`duplicate` flag holds exactly when some stored schedule carries the same
grid (second conjunct); every other non-failed candidate is appended to the
store and increments the accepted counter (third conjunct).  Hence a
completed run from the initial state ends with pairwise distinct stored
tables and an accepted counter equal to the store size (fourth conjunct),
and the store only ever grows by appending, so discovery order is preserved
(fifth conjunct). -/
theorem C6_dedup_and_store (subjects : List Subject) :
    (∀ (s : PercState) (pc : List (List Bool)),
      is_duplicate subjects s pc = true →
      process_candidate subjects s pc =
        { s with duplicates := s.duplicates + 1 }) ∧
    (∀ (s : PercState) (pc : List (List Bool)) (g : Grid),
      (mk_schedule subjects pc).table = some g →
      (is_duplicate subjects s pc = true ↔
        ∃ e ∈ s.saved_schedules, e.table = some g)) ∧
    (∀ (s : PercState) (pc : List (List Bool)),
      is_duplicate subjects s pc = false →
      is_failed subjects pc = false →
      process_candidate subjects s pc =
        { s with
          version := s.version + 1
          saved_schedules :=
            s.saved_schedules ++ [mk_schedule subjects pc] }) ∧
    (∀ (fuel : Nat) (s' : PercState),
      percolate subjects fuel (init_state subjects) = .ok s' →
      (s'.saved_schedules.map Schedule.table).Nodup ∧
        s'.version = s'.saved_schedules.length) ∧
    (∀ (fuel : Nat) (s s' : PercState),
      percolate subjects fuel s = .ok s' →
      ∃ tail, s'.saved_schedules = s.saved_schedules ++ tail) := by
  refine ⟨process_candidate_dup subjects, ?_, process_candidate_store subjects,
    ?_, percolate_saved_mono subjects⟩
  · intro s pc g htab
    rw [is_duplicate, List.any_eq_true]
    constructor
    · rintro ⟨e, he, hbe⟩
      rw [htab] at hbe
      exact ⟨e, he, (beq_iff_eq.1 hbe).symm⟩
    · rintro ⟨e, he, hte⟩
      refine ⟨e, he, ?_⟩
      rw [htab, hte]
      exact beq_iff_eq.2 rfl
  · intro fuel s' hrun
    exact percolate_obs_inv subjects
      (fun o => (o.1.map Schedule.table).Nodup ∧ o.2.2 = o.1.length)
      (fun s pc hP => process_candidate_nodup_inv subjects s pc hP)
      fuel _ _ hrun ⟨List.nodup_nil, rfl⟩

set_option maxRecDepth 100000 in
/-- Witness for C6 at concrete data: processing the same candidate twice in a
row stores it once and then counts one duplicate. -/
theorem C6_dedup_and_store_witness :
    process_candidate [subjA]
        (process_candidate [subjA] (init_state [subjA]) [[true, false]])
        [[true, false]] =
      { process_candidate [subjA] (init_state [subjA]) [[true, false]] with
        duplicates :=
          (process_candidate [subjA] (init_state [subjA])
            [[true, false]]).duplicates + 1 } :=
  (C6_dedup_and_store [subjA]).1
    (process_candidate [subjA] (init_state [subjA]) [[true, false]])
    [[true, false]] (by decide)

/-! ### Claim C2: the combination traversal misses product points -/

set_option maxRecDepth 100000 in
/-- **C2** fails on the code: for the three RequiredOne subjects of `subjC2`
every subject has a non-empty valid-vector sequence (first conjunct) and the
product of the valid-vector counts is `4 * 3 * 3 = 36` (second conjunct);
the vector triple (A: slot 1, B: slot 3, C: slot 1) is a point of that
product (third conjunct); yet the completed run evaluates only 35
combinations — each at most once (`Nodup`) — and never evaluates that
product point (fourth conjunct), so the corresponding conflict-free schedule
is never produced. -/
theorem C2_missed_combination :
    (∀ s ∈ subjC2, (Allocation.init s).arrayList ≠ []) ∧
    ((subjC2.map (fun s => (Allocation.init s).arrayList.length)).prod
      = 36) ∧
    ([true, false, false, false] ∈
        (Allocation.init (subjC2.getD 0 subjA)).arrayList ∧
      [false, false, true] ∈
        (Allocation.init (subjC2.getD 1 subjA)).arrayList ∧
      [true, false, false] ∈
        (Allocation.init (subjC2.getD 2 subjA)).arrayList) ∧
    (match percolate subjC2 100 (init_state subjC2) with
     | .ok st =>
         some (st.permutations.length,
           decide ([[true, false, false, false], [false, false, true],
             [true, false, false]] ∈ st.permutations),
           decide st.permutations.Nodup)
     | _ => none) = some (35, false, true) := by
  refine ⟨by decide, by decide, by decide, by decide⟩
